import Mathlib

/-!
Verification of the HPX collective / executor / sync_wait sources.

Theorems are organised per component:
* `AllReduce` — the `all_reduce` collective from
  `libs/full/collectives/include/hpx/collectives/all_reduce.hpp`
* `BlockExec` — the hierarchical fork-join executor from
  `libs/core/compute_local/include/hpx/compute_local/host/block_fork_join_executor.hpp`
* `SyncWait` — the sender consumer from
  `libs/core/execution/include/hpx/execution/algorithms/sync_wait.hpp`
-/

namespace HpxModel

/-! ## All-reduce collective -/

namespace AllReduce

/-- Modelled from the spec: `hpx::reduce(++data.begin(), data.end(), data[0], op)` —
the reduce algorithm itself is not under `src/`; the spec (§4.4) fixes its order as
"left-to-right over slot[1..num_sites) into slot[0], seeded by slot[0]", i.e. a left fold.
The second component counts the invocations of `op`. -/
def hpx_reduce {α : Type} (op : α → α → α) : α → List α → α × Nat
  | a, [] => (a, 0)
  | a, x :: xs =>
    let r := hpx_reduce op (op a x) xs
    (r.1, r.2 + 1)

/-- The per-generation collective fold state of the communicator: `slot0` is `data[0]`,
`rest` holds `data[1..num_sites)` (all slots filled), and `dataAvailable` is the
`bool& data_available` flag guarding the exactly-once fold. -/
structure FoldState (α : Type) where
  slot0 : α
  rest : List α
  dataAvailable : Bool
deriving Repr, DecidableEq

/-- The all_reduce finalizer lambda of
`communication_operation<Communicator, all_reduce_tag>::get`: when
`!data_available && data.size() > 1`, set `data[0]` to the reduction of the remaining
slots seeded by `data[0]` and set the flag; the returned value is `data[0]`.  The
second and third components are the value handed back to the calling site and the
number of `op` invocations performed by this call. -/
def finalize_step {α : Type} (op : α → α → α) (s : FoldState α) :
    FoldState α × α × Nat :=
  if !s.dataAvailable && decide (s.rest.length > 0) then
    let r := hpx_reduce op s.slot0 s.rest
    (⟨r.1, s.rest, true⟩, r.1, r.2)
  else
    (s, s.slot0, 0)

/-- Modelled from the spec: the communicator's `handle_data` primitive is not under
`src/`; per §4.4/§5 each site's call triggers the finalizer after all slots are
filled, and the check-fold-flag sequence runs under the communicator's internal lock,
so concurrent finalizer invocations are serialized.  `run_finalizers` executes `k`
serialized finalizer invocations, returning the list of values delivered to the `k`
sites, the final state, and the total number of `op` invocations. -/
def run_finalizers {α : Type} (op : α → α → α) (s : FoldState α) :
    Nat → List α × FoldState α × Nat
  | 0 => ([], s, 0)
  | k + 1 =>
    let step := finalize_step op s
    let more := run_finalizers op step.1 k
    (step.2.1 :: more.1, more.2.1, step.2.2 + more.2.2)

/-- The step function of the all_reduce `get`: `data[which] = t`. -/
def step_fn {α : Type} (which : Nat) (t : α) (data : List α) : List α :=
  data.set which t

/-- All sites depositing their contributions in turn: site `i` (starting at `i0`)
stores `contribs[i]` via `step_fn`. -/
def apply_steps {α : Type} : List α → Nat → List α → List α
  | data, _, [] => data
  | data, i, c :: cs => apply_steps (step_fn i c data) (i + 1) cs

/-- The entry check of `hpx::collectives::all_reduce` (communicator overload):
`generation == 0` yields `make_exceptional_future(bad_parameter)` (an already-ready
failed future); otherwise the call dispatches the communication action, which leaves
a pending future tied to the communicator.  `none` models the default
`generation_arg()` (`std::size_t(-1)` upstream), which compares unequal to zero. -/
inductive ReduceFuture (α : Type) where
  | exceptionalBadParameter
  | pendingOp (thisSite : Nat) (generation : Option Nat) (localResult : α)
deriving Repr, DecidableEq

/-- The overload `hpx::collectives::all_reduce(communicator fid, T&& local_result, F&& op,
this_site, generation)` — the synchronous part visible in the source: the
generation-zero check, then dispatch of the communication action. -/
def all_reduce_comm {α : Type} (localResult : α) (thisSite : Nat)
    (generation : Option Nat) : ReduceFuture α :=
  if generation = some 0 then
    ReduceFuture.exceptionalBadParameter
  else
    ReduceFuture.pendingOp thisSite generation localResult

/-- Modelled from the spec: `create_communicator` (not under `src/`) per the §6
collaborator contract `create(basename, num_sites, this_site, generation, root_site)`
— it creates the named, generation-scoped communicator and performs no generation
validation of its own. -/
structure Communicator where
  basename : String
  numSites : Option Nat
  thisSite : Nat
  generation : Option Nat
  rootSite : Nat
deriving Repr, DecidableEq

/-- Modelled from the spec: `create_communicator` builds the rendezvous object keyed
by `(basename, generation)`. -/
def create_communicator (basename : String) (numSites : Option Nat) (thisSite : Nat)
    (generation : Option Nat) (rootSite : Nat) : Communicator :=
  ⟨basename, numSites, thisSite, generation, rootSite⟩

/-- The overload `hpx::collectives::all_reduce(char const* basename, ...)`: creates the
communicator from `basename`, `num_sites`, `this_site`, `generation`, `root_site`
and then calls the communicator overload passing only `this_site` — the `generation`
argument is *not* forwarded, so the inner overload sees the defaulted
`generation_arg()` (modelled as `none`). -/
def all_reduce_basename {α : Type} (basename : String) (localResult : α)
    (numSites : Option Nat) (thisSite : Nat) (generation : Option Nat)
    (rootSite : Nat) : Communicator × ReduceFuture α :=
  (create_communicator basename numSites thisSite generation rootSite,
    all_reduce_comm localResult thisSite none)

/-! Basic lemmas about the fold. -/

theorem hpx_reduce_fst {α : Type} (op : α → α → α) :
    ∀ (l : List α) (a : α), (hpx_reduce op a l).1 = l.foldl op a := by
  intro l
  induction l with
  | nil => intro a; rfl
  | cons x xs ih => intro a; simp [hpx_reduce, ih, List.foldl]

theorem hpx_reduce_snd {α : Type} (op : α → α → α) :
    ∀ (l : List α) (a : α), (hpx_reduce op a l).2 = l.length := by
  intro l
  induction l with
  | nil => intro a; rfl
  | cons x xs ih => intro a; simp [hpx_reduce, ih]

/-- Once the flag is set, a finalizer invocation is a no-op returning `slot0`. -/
theorem finalize_step_done {α : Type} (op : α → α → α) (a : α) (rest : List α) :
    finalize_step op ⟨a, rest, true⟩ = (⟨a, rest, true⟩, a, 0) := by
  simp [finalize_step]

/-- The first finalizer invocation on a filled multi-site generation performs the
left-to-right fold, sets the flag, and performs `rest.length` `op`-invocations. -/
theorem finalize_step_first {α : Type} (op : α → α → α) (a : α) (rest : List α)
    (hne : rest ≠ []) :
    finalize_step op ⟨a, rest, false⟩ =
      (⟨rest.foldl op a, rest, true⟩, rest.foldl op a, rest.length) := by
  have hlen : rest.length > 0 := List.length_pos.mpr hne
  simp [finalize_step, hlen, hpx_reduce_fst, hpx_reduce_snd]

/-- After the flag is set, any number of further finalizer invocations deliver
`slot0` unchanged and never invoke `op`. -/
theorem run_finalizers_done {α : Type} (op : α → α → α) (a : α) (rest : List α) :
    ∀ k, run_finalizers op ⟨a, rest, true⟩ k =
      (List.replicate k a, ⟨a, rest, true⟩, 0) := by
  intro k
  induction k with
  | zero => rfl
  | succ k ih =>
    simp [run_finalizers, finalize_step_done, ih, List.replicate]

/-- Depositing contributions `cs` at consecutive slots starting at `i` overwrites
exactly the sub-range `[i, i + cs.length)` of the slot array. -/
theorem apply_steps_eq {α : Type} :
    ∀ (cs data : List α) (i : Nat), i + cs.length ≤ data.length →
      apply_steps data i cs = data.take i ++ cs ++ data.drop (i + cs.length) := by
  intro cs
  induction cs with
  | nil =>
    intro data i _
    simp [apply_steps]
  | cons c cs ih =>
    intro data i h
    have hi : i < data.length := by simp at h; omega
    have hset : data.set i c = data.take i ++ c :: data.drop (i + 1) := by
      rw [List.set_eq_take_append_cons_drop]
      simp [hi]
    have hlen' : (i + 1) + cs.length ≤ (data.set i c).length := by
      simp at h ⊢; omega
    have htl : (data.take i).length = i :=
      List.length_take_of_le (Nat.le_of_lt hi)
    calc apply_steps data i (c :: cs)
        = apply_steps (data.set i c) (i + 1) cs := rfl
      _ = (data.set i c).take (i + 1) ++ cs ++
            (data.set i c).drop ((i + 1) + cs.length) := ih (data.set i c) (i + 1) hlen'
      _ = data.take i ++ c :: cs ++ data.drop (i + (c :: cs).length) := by
          rw [hset]
          have h1 : (data.take i ++ c :: data.drop (i + 1)).take (i + 1) =
              data.take i ++ [c] := by
            have : i + 1 = (data.take i).length + 1 := by rw [htl]
            rw [this, List.take_append]
            simp
          have h2 : (data.take i ++ c :: data.drop (i + 1)).drop ((i + 1) + cs.length) =
              data.drop (i + (c :: cs).length) := by
            have heq : (i + 1) + cs.length = (data.take i).length + (cs.length + 1) := by
              rw [htl]; omega
            rw [heq, List.drop_append, List.drop_succ_cons, List.drop_drop]
            congr 1
            simp
            omega
          rw [h1, h2]
          simp

/-- Filling every slot of an `n`-site generation with the sites' contributions leaves
the slot array equal to the list of contributions. -/
theorem apply_steps_fill {α : Type} (contribs data : List α)
    (h : data.length = contribs.length) :
    apply_steps data 0 contribs = contribs := by
  rw [apply_steps_eq contribs data 0 (by omega)]
  simp [h]

/-- C1 main lemma: with all slots of a multi-site generation filled
(`slot0 = c`, `rest = cs ≠ []`, flag unset) and `k ≥ 1` sites triggering the
finalizer, every delivered value is the left-to-right fold of the remaining slots
seeded by `slot[0]`, and the final `slot[0]` holds that fold. -/
theorem run_finalizers_filled {α : Type} (op : α → α → α) (c : α) (cs : List α)
    (hne : cs ≠ []) :
    ∀ k, 1 ≤ k →
      run_finalizers op ⟨c, cs, false⟩ k =
        (List.replicate k (cs.foldl op c), ⟨cs.foldl op c, cs, true⟩, cs.length) := by
  intro k hk
  match k, hk with
  | k + 1, _ =>
    simp only [run_finalizers, finalize_step_first op c cs hne,
      run_finalizers_done, List.replicate, Nat.add_zero]

/-- A single-site generation (`rest = []`): the finalizer's fold branch never fires,
whatever the flag. -/
theorem run_finalizers_single {α : Type} (op : α → α → α) (c : α) (b : Bool) :
    ∀ k, run_finalizers op ⟨c, [], b⟩ k = (List.replicate k c, ⟨c, [], b⟩, 0) := by
  intro k
  induction k with
  | zero => rfl
  | succ k ih =>
    simp [run_finalizers, finalize_step, ih, List.replicate]

/-- C1: for a generation whose `num_sites` slots are all filled (depositing the
sites' contributions `c :: cs` fills the slot array exactly), the finalizer computes
`slot[0]` as the left-to-right reduction of `slot[1..num_sites)` seeded by `slot[0]`
using `reduce_fn`, and every one of the `k ≥ 1` sites triggering the finalizer has
its future resolve to that `slot[0]` value. -/
theorem all_reduce_fold_resolves {α : Type} (op : α → α → α) (init : List α)
    (c : α) (cs : List α) (hlen : init.length = (c :: cs).length) (hne : cs ≠ [])
    (k : Nat) (hk : 1 ≤ k) :
    apply_steps init 0 (c :: cs) = c :: cs ∧
    (run_finalizers op ⟨c, cs, false⟩ k).1 = List.replicate k (cs.foldl op c) ∧
    (run_finalizers op ⟨c, cs, false⟩ k).2.1.slot0 = cs.foldl op c := by
  refine ⟨apply_steps_fill (c :: cs) init hlen, ?_, ?_⟩
  · rw [run_finalizers_filled op c cs hne k hk]
  · rw [run_finalizers_filled op c cs hne k hk]

/-- C1 witness: local values `{1,2,3,4}` with `reduce_fn = sum`: every site's future
resolves to `10`. -/
theorem all_reduce_fold_resolves_witness :
    apply_steps [0, 0, 0, 0] 0 [1, 2, 3, 4] = [1, 2, 3, 4] ∧
    (run_finalizers (fun a b => a + b) ⟨1, [2, 3, 4], false⟩ 4).1 =
      List.replicate 4 10 ∧
    (run_finalizers (fun a b => a + b) ⟨1, [2, 3, 4], false⟩ 4).2.1.slot0 = 10 :=
  all_reduce_fold_resolves (fun a b => a + b) [0, 0, 0, 0] 1 [2, 3, 4]
    (by decide) (by decide) 4 (by decide)

/-- C2: for a fixed generation, however many sites (`k ≥ 1`) reach the finalizer
after all slots are filled, `reduce_fn` is invoked exactly `num_sites − 1` times in
total: the fold body runs only while `data_available` is unset, and the flag is set
immediately after the fold. -/
theorem reduce_fn_invoked_num_sites_sub_one {α : Type} (op : α → α → α) (c : α)
    (cs : List α) (k : Nat) (hk : 1 ≤ k) :
    (run_finalizers op ⟨c, cs, false⟩ k).2.2 = (c :: cs).length - 1 := by
  cases cs with
  | nil => rw [run_finalizers_single]; rfl
  | cons c1 cs1 =>
    rw [run_finalizers_filled op c (c1 :: cs1) (by simp) k hk]
    simp

/-- C2 witness: four sites racing on a filled four-slot generation invoke
`reduce_fn` exactly three times. -/
theorem reduce_fn_invoked_num_sites_sub_one_witness :
    (run_finalizers (fun a b => a + b) ⟨1, [2, 3, 4], false⟩ 4).2.2 =
      [1, 2, 3, 4].length - 1 :=
  reduce_fn_invoked_num_sites_sub_one (fun a b => a + b) 1 [2, 3, 4] 4 (by decide)

/-- C10: with exactly one participating site (slot array of size 1), the finalizer
never invokes the reduction function, never sets `data_available`, and every
invocation resolves to the single site's own contribution unchanged. -/
theorem single_site_identity {α : Type} (op : α → α → α) (c : α) (k : Nat) :
    run_finalizers op ⟨c, [], false⟩ k = (List.replicate k c, ⟨c, [], false⟩, 0) :=
  run_finalizers_single op c false k

/-- C5 (amended): the communicator-handle overload rejects `generation == 0`
immediately and synchronously with a `bad_parameter` exceptional (already-ready)
future — no communication op is dispatched and no pending future is left behind.
The basename overload forwards `generation` only to `create_communicator` (where it
names the round) and calls the inner overload with the defaulted generation, so it
never produces this rejection and always dispatches the communication op. -/
theorem generation_zero_handling {α : Type} (v : α) (site : Nat) (gen : Option Nat)
    (basename : String) (ns : Option Nat) (rs : Nat) :
    (gen = some 0 → all_reduce_comm v site gen = ReduceFuture.exceptionalBadParameter) ∧
    (all_reduce_basename basename v ns site gen rs).2 =
      ReduceFuture.pendingOp site none v := by
  constructor
  · intro h
    simp [all_reduce_comm, h]
  · simp [all_reduce_basename, all_reduce_comm]

/-- C5 witness: with `generation = 0`, the communicator overload returns the
exceptional future while the basename overload dispatches a pending operation. -/
theorem generation_zero_handling_witness :
    all_reduce_comm (42 : Nat) 0 (some 0) = ReduceFuture.exceptionalBadParameter ∧
    (all_reduce_basename "reduce_op" (42 : Nat) (some 4) 0 (some 0) 0).2 =
      ReduceFuture.pendingOp 0 none 42 :=
  ⟨(generation_zero_handling 42 0 (some 0) "reduce_op" (some 4) 0).1 rfl,
    (generation_zero_handling 42 0 (some 0) "reduce_op" (some 4) 0).2⟩

/-- C5 counterexample: the basename overload called with `generation = 0` does not
fail with the parameter error — the generation-zero check in the communicator
overload is never reached because `generation` is not forwarded to it. -/
theorem generation_zero_basename_counterexample :
    (all_reduce_basename "reduce_op" (42 : Nat) (some 4) 0 (some 0) 0).2 ≠
      ReduceFuture.exceptionalBadParameter := by decide

end AllReduce

/-! ## Hierarchical (block) fork-join executor -/

namespace BlockExec

/-- The `fork_join_executor::loop_schedule` enumeration. -/
inductive LoopSchedule where
  | static_
  | dynamic_
deriving Repr, DecidableEq

/-- The construction parameters of one single-level `fork_join_executor`:
(core mask, priority, stacksize, loop schedule, yield delay).  A core mask is a
bitset over hardware execution units, modelled as a natural number. -/
structure ForkJoinParams where
  mask : Nat
  priority : Nat
  stacksize : Nat
  schedule : LoopSchedule
  yieldDelay : Nat
deriving Repr, DecidableEq

/-- The `block_fork_join_executor`: one top-level executor `exec_` plus
zero-or-more per-target sub-executors `block_execs_`. -/
structure BlockForkJoin where
  exec : ForkJoinParams
  blockExecs : List ForkJoinParams
deriving Repr, DecidableEq

/-- The operation `hpx::threads::set(mask, pu)`: set bit `pu`. -/
def set_bit (m : Nat) (i : Nat) : Nat := m ||| (1 <<< i)

/-- Fuel-bounded search for the lowest set bit. -/
def find_first_aux : Nat → Nat → Nat
  | 0, _ => 0
  | fuel + 1, m => if m % 2 = 1 then 0 else find_first_aux fuel (m / 2) + 1

/-- Modelled from the spec: `hpx::threads::find_first(mask)` (topology glue, not
under `src/`) returns the lowest-numbered core of the mask. -/
def find_first (m : Nat) : Nat := find_first_aux m m

/-- The representative-selection loop of
`block_fork_join_executor::cores_for_targets`: iterate over the targets carrying
`(mask, this_thread_is_represented)`; the first target containing `this_pu` gets
`this_pu` as its representative, every other target gets its first core. -/
def cores_loop (pu : Nat) : Nat → Bool → List Nat → Nat × Bool
  | mask, rep, [] => (mask, rep)
  | mask, rep, t :: ts =>
    if !rep && t.testBit pu then cores_loop pu (set_bit mask pu) true ts
    else cores_loop pu (set_bit mask (find_first t)) rep ts

/-- The configuration error (`HPX_THROW_EXCEPTION(bad_parameter, ...)`) raised by
`cores_for_targets`. -/
inductive ConfigError where
  | badParameter
deriving Repr, DecidableEq

/-- The placement derivation `block_fork_join_executor::cores_for_targets`: with exactly one target, return
its full mask, failing unless the constructing thread's core `pu` lies in it; with
any other number of targets, run the representative loop and fail unless some
target contains `pu`. -/
def cores_for_targets (targets : List Nat) (pu : Nat) : Except ConfigError Nat :=
  match targets with
  | [t] => if t.testBit pu then .ok t else .error .badParameter
  | _ =>
    let r := cores_loop pu 0 false targets
    if r.2 then .ok r.1 else .error .badParameter

/-- The `block_fork_join_executor` targets-constructor: member-initialize `exec_`
from `cores_for_targets(targets)` (so a placement failure is raised at construction
time, before anything else), with the loop schedule forced to `static_` unless
exactly one target was given; then, if more than one target was supplied, build one
sub-executor per target over that target's full mask with the *requested* schedule. -/
def mk_block_fork_join_executor (targets : List Nat) (pu : Nat)
    (priority stacksize : Nat) (schedule : LoopSchedule) (yieldDelay : Nat) :
    Except ConfigError BlockForkJoin :=
  match cores_for_targets targets pu with
  | .error e => .error e
  | .ok mask =>
    .ok
      { exec := ⟨mask, priority, stacksize,
          if targets.length = 1 then schedule else LoopSchedule.static_,
          yieldDelay⟩
        blockExecs :=
          if targets.length > 1 then
            targets.map (fun t => ⟨t, priority, stacksize, schedule, yieldDelay⟩)
          else [] }

/-- The boundary `part_begin = (index * size) / num_targets` from `bulk_sync_execute`. -/
def part_begin (N size i : Nat) : Nat := (i * size) / N

/-- The boundary `part_end = ((index + 1) * size) / num_targets` from `bulk_sync_execute`. -/
def part_end (N size i : Nat) : Nat := ((i + 1) * size) / N

/-- The inner shape handed to sub-executor `i`:
`make_iterator_range(next(begin, part_begin), next(begin, part_end))`. -/
def slice {ι : Type} (shape : List ι) (N i : Nat) : List ι :=
  (shape.drop (part_begin N shape.length i)).take
    (part_end N shape.length i - part_begin N shape.length i)

/-- Modelled from the spec: the single-level `fork_join_executor`'s
barrier-synchronized `bulk_sync_execute` (external contract, §6): invoke `f` once
per element of the shape; an exception from `f` propagates.  On success the
returned trace lists the elements `f` was invoked on, in order. -/
def fj_bulk_sync {ι ε : Type} (f : ι → Except ε Unit) : List ι → Except ε (List ι)
  | [] => .ok []
  | x :: xs =>
    match f x with
    | .error e => .error e
    | .ok _ =>
      match fj_bulk_sync f xs with
      | .error e => .error e
      | .ok tr => .ok (x :: tr)

/-- The dispatch of `outer_func` over the outer counting shape `[0, num_targets)`:
index `i` runs `f` over its partition's sub-range on sub-executor `i`. -/
def outer_run {ι ε : Type} (f : ι → Except ε Unit) (shape : List ι) (N : Nat) :
    List Nat → Except ε (List ι)
  | [] => .ok []
  | i :: is =>
    match fj_bulk_sync f (slice shape N i) with
    | .error e => .error e
    | .ok tr =>
      match outer_run f shape N is with
      | .error e => .error e
      | .ok tr2 => .ok (tr ++ tr2)

/-- The operation `block_fork_join_executor::bulk_sync_execute`: with no executor hierarchy
(`block_execs_.size() == 0`) forward unchanged to the top-level executor; otherwise
partition the shape into `num_targets` contiguous parts and dispatch each part to
its sub-executor via the outer counting shape. -/
def bulk_sync_execute {ι ε : Type} (numSubExecs : Nat) (f : ι → Except ε Unit)
    (shape : List ι) : Except ε (List ι) :=
  if numSubExecs = 0 then fj_bulk_sync f shape
  else outer_run f shape numSubExecs (List.range numSubExecs)

/-- A future as observable from a `bulk_async_execute` call: already ready (with
the performed invocation trace), or already failed holding the captured
exception. -/
inductive HpxFuture (ε ι : Type) where
  | ready (trace : List ι)
  | exceptional (e : ε)
deriving Repr, DecidableEq

/-- The combinator `hpx::detail::try_catch_exception_ptr`: run the body; on an exception hand the
captured exception pointer to the catch continuation. -/
def try_catch_exception_ptr {ε β : Type} (body : Except ε β) (handler : ε → β) : β :=
  match body with
  | .ok v => v
  | .error e => handler e

/-- The operation `block_fork_join_executor::bulk_async_execute`: forward to the synchronous
version (the calling thread participates in the computation); on success return
`make_ready_future()`, on an exception return `make_exceptional_future(ep)`. -/
def bulk_async_execute {ι ε : Type} (numSubExecs : Nat) (f : ι → Except ε Unit)
    (shape : List ι) : HpxFuture ε ι :=
  try_catch_exception_ptr
    ((bulk_sync_execute numSubExecs f shape).map HpxFuture.ready)
    HpxFuture.exceptional

/-- Follows the claim's words (C9): the outcome of the identical synchronous
computation, delivered as an already-ready future on success and as an
already-failed future holding the captured exception on failure. -/
def delivered_as_future {ι ε : Type} (r : Except ε (List ι)) : HpxFuture ε ι :=
  match r with
  | .ok tr => HpxFuture.ready tr
  | .error e => HpxFuture.exceptional e

/-- The representative cores chosen by the `cores_loop` iteration, in target
order. -/
def reps (pu : Nat) : Bool → List Nat → List Nat
  | _, [] => []
  | rep, t :: ts =>
    if !rep && t.testBit pu then pu :: reps pu true ts
    else find_first t :: reps pu rep ts

/-- The representative core of target `i` as the claim states it: the calling
thread's own core for the first target containing it, the target's lowest-numbered
core otherwise. -/
def rep_core (targets : List Nat) (pu : Nat) (i : Nat) : Nat :=
  if i = targets.findIdx (fun t => t.testBit pu) then pu
  else find_first (targets.getD i 0)

theorem find_first_aux_spec :
    ∀ (fuel m : Nat), m ≠ 0 → m ≤ fuel →
      m.testBit (find_first_aux fuel m) = true ∧
      ∀ j < find_first_aux fuel m, m.testBit j = false := by
  intro fuel
  induction fuel with
  | zero => intro m hm hle; omega
  | succ fuel ih =>
    intro m hm hle
    by_cases hodd : m % 2 = 1
    · refine ⟨?_, ?_⟩
      · simp [find_first_aux, hodd, Nat.testBit_zero]
      · intro j hj
        simp [find_first_aux, hodd] at hj
    · have h2 : m % 2 = 0 := by omega
      have hm2 : m / 2 ≠ 0 := by omega
      have hle2 : m / 2 ≤ fuel := by omega
      obtain ⟨h1, hmin⟩ := ih (m / 2) hm2 hle2
      refine ⟨?_, ?_⟩
      · simp only [find_first_aux, hodd, if_false, ite_false]
        rw [Nat.testBit_succ]
        exact h1
      · intro j hj
        simp only [find_first_aux, hodd, if_false, ite_false] at hj
        cases j with
        | zero => simp [Nat.testBit_zero, h2]
        | succ j =>
          rw [Nat.testBit_succ]
          exact hmin j (by omega)

/-- The function `find_first` returns a core of the mask, and no lower-numbered core is in the
mask: it is the lowest-numbered core. -/
theorem find_first_spec (m : Nat) (hm : m ≠ 0) :
    m.testBit (find_first m) = true ∧ ∀ j < find_first m, m.testBit j = false :=
  find_first_aux_spec m m hm le_rfl

theorem testBit_set_bit (m b c : Nat) :
    (set_bit m b).testBit c = (m.testBit c || decide (b = c)) := by
  simp [set_bit, Nat.testBit_or, Nat.shiftLeft_eq, Nat.testBit_two_pow]

/-- The loop's `this_thread_is_represented` flag ends up true exactly when some
target contains the constructing thread's core. -/
theorem cores_loop_snd (pu : Nat) :
    ∀ (ts : List Nat) (mask : Nat) (rep : Bool),
      (cores_loop pu mask rep ts).2 = (rep || ts.any fun t => t.testBit pu) := by
  intro ts
  induction ts with
  | nil => intro mask rep; simp [cores_loop]
  | cons t ts ih =>
    intro mask rep
    cases rep <;> cases htb : t.testBit pu <;> simp [cores_loop, htb, ih]

/-- The loop accumulates exactly the representative cores on top of the initial
mask. -/
theorem cores_loop_fst_testBit (pu : Nat) :
    ∀ (ts : List Nat) (mask : Nat) (rep : Bool) (c : Nat),
      ((cores_loop pu mask rep ts).1.testBit c = true ↔
        mask.testBit c = true ∨ c ∈ reps pu rep ts) := by
  intro ts
  induction ts with
  | nil => intro mask rep c; simp [cores_loop, reps]
  | cons t ts ih =>
    intro mask rep c
    cases rep <;> cases htb : t.testBit pu <;>
      simp [cores_loop, reps, htb, ih, testBit_set_bit, or_assoc] <;>
      constructor <;> rintro (h | h | h) <;> tauto

/-- Once some target is represented, every remaining target contributes its first
core. -/
theorem reps_true (pu : Nat) :
    ∀ ts : List Nat, reps pu true ts = ts.map find_first := by
  intro ts
  induction ts with
  | nil => rfl
  | cons t ts ih => simp [reps, ih]

theorem mem_map_find_first (c : Nat) :
    ∀ ts : List Nat,
      (c ∈ ts.map find_first ↔ ∃ i, i < ts.length ∧ c = find_first (ts.getD i 0)) := by
  intro ts
  induction ts with
  | nil => simp
  | cons t ts ih =>
    simp only [List.map_cons, List.mem_cons, ih, List.length_cons]
    constructor
    · rintro (h | ⟨i, hi, hc⟩)
      · exact ⟨0, by omega, h⟩
      · exact ⟨i + 1, by omega, hc⟩
    · rintro ⟨i, hi, hc⟩
      cases i with
      | zero => exact Or.inl hc
      | succ i => exact Or.inr ⟨i, by omega, hc⟩

theorem rep_core_cons_zero_false (t pu : Nat) (ts : List Nat)
    (htb : t.testBit pu = false) : rep_core (t :: ts) pu 0 = find_first t := by
  simp [rep_core, List.findIdx_cons, htb]

theorem rep_core_cons_succ_false (t pu : Nat) (ts : List Nat)
    (htb : t.testBit pu = false) (i : Nat) :
    rep_core (t :: ts) pu (i + 1) = rep_core ts pu i := by
  simp [rep_core, List.findIdx_cons, htb]

theorem rep_core_cons_zero_true (t pu : Nat) (ts : List Nat)
    (htb : t.testBit pu = true) : rep_core (t :: ts) pu 0 = pu := by
  simp [rep_core, List.findIdx_cons, htb]

theorem rep_core_cons_succ_true (t pu : Nat) (ts : List Nat)
    (htb : t.testBit pu = true) (i : Nat) :
    rep_core (t :: ts) pu (i + 1) = find_first (ts.getD i 0) := by
  simp [rep_core, List.findIdx_cons, htb]

/-- The loop's representatives (starting unrepresented) are exactly the per-target
representative cores of the claim. -/
theorem mem_reps_false (pu c : Nat) :
    ∀ ts : List Nat,
      (c ∈ reps pu false ts ↔ ∃ i, i < ts.length ∧ c = rep_core ts pu i) := by
  intro ts
  induction ts with
  | nil => simp [reps]
  | cons t ts ih =>
    cases htb : t.testBit pu with
    | false =>
      have hreps : reps pu false (t :: ts) = find_first t :: reps pu false ts := by
        simp [reps, htb]
      rw [hreps]
      simp only [List.mem_cons, ih, List.length_cons]
      constructor
      · rintro (h | ⟨i, hi, hc⟩)
        · exact ⟨0, by omega, by rw [rep_core_cons_zero_false t pu ts htb]; exact h⟩
        · exact ⟨i + 1, by omega,
            by rw [rep_core_cons_succ_false t pu ts htb]; exact hc⟩
      · rintro ⟨i, hi, hc⟩
        cases i with
        | zero => exact Or.inl (by rw [rep_core_cons_zero_false t pu ts htb] at hc; exact hc)
        | succ i =>
          exact Or.inr ⟨i, by omega,
            by rw [rep_core_cons_succ_false t pu ts htb] at hc; exact hc⟩
    | true =>
      have hreps : reps pu false (t :: ts) = pu :: ts.map find_first := by
        simp [reps, htb, reps_true]
      rw [hreps]
      simp only [List.mem_cons, mem_map_find_first, List.length_cons]
      constructor
      · rintro (h | ⟨i, hi, hc⟩)
        · exact ⟨0, by omega, by rw [rep_core_cons_zero_true t pu ts htb]; exact h⟩
        · exact ⟨i + 1, by omega,
            by rw [rep_core_cons_succ_true t pu ts htb]; exact hc⟩
      · rintro ⟨i, hi, hc⟩
        cases i with
        | zero => exact Or.inl (by rw [rep_core_cons_zero_true t pu ts htb] at hc; exact hc)
        | succ i =>
          exact Or.inr ⟨i, by omega,
            by rw [rep_core_cons_succ_true t pu ts htb] at hc; exact hc⟩

/-- The constructor fails exactly when `cores_for_targets` does. -/
theorem mk_isOk (targets : List Nat) (pu p s : Nat) (sch : LoopSchedule) (d : Nat) :
    (mk_block_fork_join_executor targets pu p s sch d).isOk =
      (cores_for_targets targets pu).isOk := by
  unfold mk_block_fork_join_executor
  cases cores_for_targets targets pu <;> rfl

/-- C6: constructing the hierarchical executor raises the configuration error at
construction time exactly when the constructing thread's core is contained in none
of the given targets' masks — for one target, when that target's mask excludes the
caller's core; for several, when no target's mask contains it. -/
theorem construction_error_iff (targets : List Nat) (pu p s : Nat)
    (sch : LoopSchedule) (d : Nat) :
    (mk_block_fork_join_executor targets pu p s sch d).isOk = false ↔
      ∀ t ∈ targets, t.testBit pu = false := by
  rw [mk_isOk]
  match targets with
  | [] => simp [cores_for_targets, cores_loop, Except.isOk, Except.toBool]
  | [t] =>
    cases htb : t.testBit pu <;> simp [cores_for_targets, htb, Except.isOk, Except.toBool]
  | a :: b :: l =>
    have hsnd := cores_loop_snd pu (a :: b :: l) 0 false
    rw [Bool.false_or] at hsnd
    simp only [cores_for_targets, hsnd]
    cases hany : (a :: b :: l).any fun t => t.testBit pu with
    | false =>
      rw [if_neg (by simp)]
      simpa [Except.isOk, Except.toBool] using List.any_eq_false.mp hany
    | true =>
      rw [if_pos rfl]
      obtain ⟨t, ht, htb⟩ := List.any_eq_true.mp hany
      simp only [Except.isOk, Except.toBool]
      constructor
      · intro h; cases h
      · intro h; exact absurd (h t ht) (by simp [htb])

/-- C6 witness: a single target excluding the caller's core and a pair of targets
both excluding it fail; a pair containing it succeeds. -/
theorem construction_error_iff_witness :
    (mk_block_fork_join_executor [12] 0 0 0 LoopSchedule.static_ 0).isOk = false ∧
    (mk_block_fork_join_executor [12, 48] 0 0 0 LoopSchedule.static_ 0).isOk = false ∧
    (mk_block_fork_join_executor [1, 2] 0 0 0 LoopSchedule.static_ 0).isOk ≠ false :=
  ⟨(construction_error_iff [12] 0 0 0 LoopSchedule.static_ 0).mpr (by decide),
    (construction_error_iff [12, 48] 0 0 0 LoopSchedule.static_ 0).mpr (by decide),
    fun h => by
      have := (construction_error_iff [1, 2] 0 0 0 LoopSchedule.static_ 0).mp h
      exact absurd (this 1 (by simp)) (by decide)⟩

/-- In the multi-target case with the caller represented, `cores_for_targets`
succeeds with the loop's accumulated mask. -/
theorem cores_for_targets_ok_multi (targets : List Nat) (pu : Nat)
    (h2 : 2 ≤ targets.length) (hin : (targets.any fun t => t.testBit pu) = true) :
    cores_for_targets targets pu = Except.ok (cores_loop pu 0 false targets).1 := by
  match targets, h2 with
  | a :: b :: l, _ =>
    have hsnd := cores_loop_snd pu (a :: b :: l) 0 false
    rw [Bool.false_or] at hsnd
    simp only [cores_for_targets]
    rw [if_pos (hsnd.trans hin)]

/-- C8: for multiple targets whose union contains the constructing thread's core,
the representative mask contains exactly one representative core per target: the
caller's own core represents the (first) target containing it, and every other
target is represented by its lowest-numbered core. -/
theorem cores_for_targets_representatives (targets : List Nat) (pu : Nat)
    (h2 : 2 ≤ targets.length) (hin : (targets.any fun t => t.testBit pu) = true)
    (hnz : ∀ t ∈ targets, t ≠ 0) (mask : Nat)
    (hok : cores_for_targets targets pu = Except.ok mask) :
    (∀ c, mask.testBit c = true ↔
      ∃ i, i < targets.length ∧ c = rep_core targets pu i) ∧
    ((targets.findIdx fun t => t.testBit pu) < targets.length ∧
      rep_core targets pu (targets.findIdx fun t => t.testBit pu) = pu) ∧
    (∀ i, i < targets.length → i ≠ (targets.findIdx fun t => t.testBit pu) →
      IsLeast {c | (targets.getD i 0).testBit c = true} (rep_core targets pu i)) := by
  have hmask : mask = (cores_loop pu 0 false targets).1 := by
    have h := (cores_for_targets_ok_multi targets pu h2 hin).symm.trans hok
    injection h with h
    exact h.symm
  obtain ⟨t0, ht0, htb0⟩ := List.any_eq_true.mp hin
  refine ⟨?_, ⟨?_, ?_⟩, ?_⟩
  · intro c
    rw [hmask, cores_loop_fst_testBit pu targets 0 false c]
    simp [Nat.zero_testBit, mem_reps_false]
  · exact List.findIdx_lt_length_of_exists ⟨t0, ht0, htb0⟩
  · simp [rep_core]
  · intro i hi hne
    have hrep : rep_core targets pu i = find_first (targets.getD i 0) := by
      simp [rep_core, hne]
    have hget : targets.getD i 0 = targets.get ⟨i, hi⟩ := List.getD_eq_get targets 0 hi
    have hmem : targets.get ⟨i, hi⟩ ∈ targets := List.get_mem targets i hi
    have hnz' : targets.getD i 0 ≠ 0 := by rw [hget]; exact hnz _ hmem
    obtain ⟨hbit, hmin⟩ := find_first_spec (targets.getD i 0) hnz'
    refine ⟨by rw [hrep]; exact hbit, ?_⟩
    intro b hb
    rw [hrep]
    by_contra hlt
    have hfalse : (targets.getD i 0).testBit b = false := hmin b (by omega)
    rw [Set.mem_setOf_eq] at hb
    rw [hb] at hfalse
    exact Bool.noConfusion hfalse

/-- C8 witness: targets `{12, 3}` (cores `{2,3}` and `{0,1}`), caller on core 0:
the mask is `5` = {0, 2}; the caller's core represents the containing target and
core 2 (= lowest of `12`) appears for the other. -/
theorem cores_for_targets_representatives_witness :
    (5 : Nat).testBit 2 = true ∧
    rep_core [12, 3] 0 ([12, 3].findIdx fun t => t.testBit 0) = 0 :=
  have thm := cores_for_targets_representatives [12, 3] 0 (by decide) (by decide)
    (by decide) 5 rfl
  ⟨(thm.1 2).mpr ⟨0, by decide, by decide⟩, thm.2.1.2⟩

/-! Partitioning of the index shape. -/

/-- Concatenating the consecutive boundary slices of `l` up to boundary `n`
reconstructs the prefix of `l` up to the `n`-th boundary. -/
theorem flatten_slices_take {α : Type} (l : List α) (b : Nat → Nat)
    (h0 : b 0 = 0) (mono : ∀ i, b i ≤ b (i + 1)) :
    ∀ n, ((List.range n).map fun i => (l.drop (b i)).take (b (i + 1) - b i)).flatten
      = l.take (b n) := by
  intro n
  induction n with
  | zero => simp [h0]
  | succ n ih =>
    rw [List.range_succ, List.map_append, List.flatten_append, ih]
    simp only [List.map_cons, List.map_nil, List.flatten_cons, List.flatten_nil,
      List.append_nil]
    rw [← List.take_add]
    congr 1
    have := mono n
    omega

/-- The parts are contiguous, in order, and cover the shape exactly once. -/
theorem slices_cover {ι : Type} (shape : List ι) (N : Nat) (hN : 1 ≤ N) :
    ((List.range N).map fun i => slice shape N i).flatten = shape := by
  have h := flatten_slices_take shape (fun i => part_begin N shape.length i)
    (by simp [part_begin])
    (fun i => Nat.div_le_div_right (Nat.mul_le_mul_right _ (Nat.le_succ i))) N
  have hb : part_begin N shape.length N = shape.length := by
    unfold part_begin
    exact Nat.mul_div_cancel_left shape.length (by omega)
  rw [hb, List.take_length] at h
  exact h

/-- Each part's length is within one of `size / N`. -/
theorem part_size_bound (N s i : Nat) (hN : 1 ≤ N) :
    part_end N s i - part_begin N s i ≤ s / N + 1 ∧
    s / N ≤ part_end N s i - part_begin N s i + 1 := by
  have h : part_end N s i =
      part_begin N s i + (s / N + if N ≤ i * s % N + s % N then 1 else 0) := by
    unfold part_end part_begin
    rw [Nat.succ_mul, Nat.add_div (by omega : 0 < N)]
    by_cases hc : N ≤ i * s % N + s % N <;> simp [hc] <;> omega
  rw [h, Nat.add_sub_cancel_left]
  by_cases hc : N ≤ i * s % N + s % N <;> simp [hc] <;> omega

/-- A bulk operation whose body never throws invokes `f` on every element of the
shape in order. -/
theorem fj_bulk_sync_ok {ι ε : Type} (f : ι → Except ε Unit)
    (hf : ∀ x, f x = Except.ok ()) :
    ∀ l : List ι, fj_bulk_sync f l = Except.ok l := by
  intro l
  induction l with
  | nil => rfl
  | cons x xs ih => simp [fj_bulk_sync, hf, ih]

theorem outer_run_ok {ι ε : Type} (f : ι → Except ε Unit) (shape : List ι)
    (N : Nat) (hf : ∀ x, f x = Except.ok ()) :
    ∀ is : List Nat,
      outer_run f shape N is =
        Except.ok ((is.map fun i => slice shape N i).flatten) := by
  intro is
  induction is with
  | nil => rfl
  | cons i is ih => simp [outer_run, fj_bulk_sync_ok f hf, ih]

/-- C3: for every non-empty shape and every target count `N ≥ 1`, the partition by
`part_begin(i) = ⌊i·size/N⌋`, `part_end(i) = ⌊(i+1)·size/N⌋` covers the shape
exactly once (contiguous, in-order concatenation of the parts is the shape), each
part's length is within one of `size / N`, and consequently `bulk_sync_execute`
over `N` sub-executors invokes `f` exactly once per index of the shape. -/
theorem partition_exact_cover {ι ε : Type} (shape : List ι) (N : Nat) (hN : 1 ≤ N)
    (f : ι → Except ε Unit) (hf : ∀ x, f x = Except.ok ()) :
    ((List.range N).map fun i => slice shape N i).flatten = shape ∧
    (∀ i, part_end N shape.length i - part_begin N shape.length i ≤
        shape.length / N + 1 ∧
      shape.length / N ≤
        part_end N shape.length i - part_begin N shape.length i + 1) ∧
    bulk_sync_execute N f shape = Except.ok shape := by
  refine ⟨slices_cover shape N hN, fun i => part_size_bound N shape.length i hN, ?_⟩
  unfold bulk_sync_execute
  rw [if_neg (by omega), outer_run_ok f shape N hf (List.range N),
    slices_cover shape N hN]

/-- C3 witness: shape `[0,10)` over `N = 4` targets is covered exactly once, the
second part is within one of `10/4`, and the bulk operation invokes `f` once per
index. -/
theorem partition_exact_cover_witness :
    ((List.range 4).map fun i => slice (List.range 10) 4 i).flatten =
      List.range 10 ∧
    part_end 4 (List.range 10).length 1 - part_begin 4 (List.range 10).length 1 ≤
      (List.range 10).length / 4 + 1 ∧
    bulk_sync_execute 4 (fun _ : Nat => Except.ok (ε := Unit) ())
      (List.range 10) = Except.ok (List.range 10) :=
  have thm := partition_exact_cover (List.range 10) 4 (by decide)
    (fun _ : Nat => Except.ok (ε := Unit) ()) (fun _ => rfl)
  ⟨thm.1, (thm.2.1 1).1, thm.2.2⟩

/-- C7 counterexample: with two targets and the dynamic schedule requested, both
sub-executors are constructed with the dynamic schedule, not the static one the
claim asserts. -/
theorem sub_executors_static_counterexample :
    (mk_block_fork_join_executor [1, 2] 0 0 0 LoopSchedule.dynamic_ 0).map
        (fun b => b.blockExecs.map ForkJoinParams.schedule) =
      Except.ok [LoopSchedule.dynamic_, LoopSchedule.dynamic_] ∧
    LoopSchedule.dynamic_ ≠ LoopSchedule.static_ := by
  constructor
  · rfl
  · decide

/-- C7 (amended): when more than one target is supplied, each per-target
sub-executor is pinned to that target's full core mask and is constructed with the
loop schedule *requested* in the constructor; it is the top-level executor that
always uses the static loop schedule regardless of the requested one. -/
theorem sub_executors_pinned_schedule (targets : List Nat) (pu p s : Nat)
    (sch : LoopSchedule) (d : Nat) (bex : BlockForkJoin)
    (h2 : 2 ≤ targets.length)
    (hok : mk_block_fork_join_executor targets pu p s sch d = Except.ok bex) :
    bex.blockExecs.map ForkJoinParams.mask = targets ∧
    (∀ e ∈ bex.blockExecs, e.schedule = sch) ∧
    bex.exec.schedule = LoopSchedule.static_ := by
  unfold mk_block_fork_join_executor at hok
  cases hc : cores_for_targets targets pu with
  | error e => rw [hc] at hok; cases hok
  | ok mask =>
    rw [hc] at hok
    injection hok with hok
    subst hok
    have hgt : targets.length > 1 := by omega
    have hne1 : targets.length ≠ 1 := by omega
    refine ⟨?_, ?_, ?_⟩
    · simp only [if_pos hgt, List.map_map]
      have hcomp : (ForkJoinParams.mask ∘ fun t => ForkJoinParams.mk t p s sch d) = id := rfl
      rw [hcomp, List.map_id]
    · simp only [if_pos hgt]
      intro e he
      obtain ⟨t, hmem, het⟩ := List.mem_map.mp he
      rw [← het]
    · simp [hne1]

/-- C7 amended-claim witness: two targets with the dynamic schedule requested —
sub-executors pinned to `[1, 2]` with the dynamic schedule, top level static. -/
theorem sub_executors_pinned_schedule_witness :
    ([⟨1, 0, 0, LoopSchedule.dynamic_, 0⟩, ⟨2, 0, 0, LoopSchedule.dynamic_, 0⟩] :
        List ForkJoinParams).map ForkJoinParams.mask = [1, 2] ∧
    (⟨3, 0, 0, LoopSchedule.static_, 0⟩ : ForkJoinParams).schedule =
      LoopSchedule.static_ :=
  have thm := sub_executors_pinned_schedule [1, 2] 0 0 0 LoopSchedule.dynamic_ 0
    ⟨⟨3, 0, 0, LoopSchedule.static_, 0⟩,
      [⟨1, 0, 0, LoopSchedule.dynamic_, 0⟩, ⟨2, 0, 0, LoopSchedule.dynamic_, 0⟩]⟩
    (by decide) rfl
  ⟨thm.1, thm.2.2⟩

/-- C9: `bulk_async_execute` performs the identical computation as
`bulk_sync_execute`; an exception is captured and delivered as an already-failed
future rather than propagating synchronously, and success yields an already-ready
future. -/
theorem bulk_async_matches_sync {ι ε : Type} (N : Nat) (f : ι → Except ε Unit)
    (shape : List ι) :
    bulk_async_execute N f shape = delivered_as_future (bulk_sync_execute N f shape) := by
  unfold bulk_async_execute delivered_as_future try_catch_exception_ptr
  cases bulk_sync_execute N f shape <;> rfl

end BlockExec

/-! ## sync_wait -/

namespace SyncWait

/-- The stored error alternative (`error_type`): an opaque captured
`std::exception_ptr` (identified by an id so rethrow identity can be stated) or a
typed error value. -/
inductive StoredError (η : Type) where
  | exceptionPtr (id : Nat)
  | typed (e : η)
deriving Repr, DecidableEq

/-- The shared state's `hpx::variant<hpx::monostate, error_type, result_type>`:
`monostate` until a signal arrives (and still `monostate` after `set_stopped`,
which only sets the flag), `error` after `set_error`, `result` after
`set_value`. -/
inductive Stored (η ρ : Type) where
  | monostate
  | error (e : StoredError η)
  | result (r : ρ)
deriving Repr, DecidableEq

/-- What a `get_value` call can throw: the rethrown captured exception (identity
preserved), a thrown typed error value, or `hpx::bad_variant_access` from
`hpx::get` on a variant holding a different alternative. -/
inductive Thrown (η : Type) where
  | rethrownPtr (id : Nat)
  | typedError (e : η)
  | badVariantAccess
deriving Repr, DecidableEq

/-- The visitor `sync_wait_error_visitor`: `std::rethrow_exception(ep)` for a captured
exception pointer (identity preserved), `throw error` for a typed error. -/
def sync_wait_error_visitor {η : Type} : StoredError η → Thrown η
  | .exceptionPtr id => Thrown.rethrownPtr id
  | .typed e => Thrown.typedError e

/-- Modelled from the spec: `hpx::get<result_type>(value)` (the variant lives in a
support library, not under `src/`) — standard `std::get` semantics: return the held
alternative or throw `bad_variant_access`. -/
def hpx_get_result {η ρ : Type} : Stored η ρ → Except (Thrown η) ρ
  | .result r => Except.ok r
  | _ => Except.error Thrown.badVariantAccess

/-- The function `shared_state::get_value` as written in the source: both `if constexpr`
branches (`Sync_wait_type::single` and `::variant`) return
`hpx::optional(hpx::get<result_type>(HPX_MOVE(value)))` unconditionally (the
`single` branch additionally unwraps the one-element tuple, which `ρ` already
models), so the `holds_alternative<error_type>` visit and the monostate →
empty-optional return below them are unreachable. -/
def get_value {η ρ : Type} (v : Stored η ρ) : Except (Thrown η) (Option ρ) :=
  (hpx_get_result v).map some

/-- Follows the claim's words (spec §4.1/§7, and the unreachable code's own
comments): a value signal yields a present optional; a stopped signal yields an
empty optional with no exception; an error signal re-raises through
`sync_wait_error_visitor`. -/
def get_value_claimed {η ρ : Type} : Stored η ρ → Except (Thrown η) (Option ρ)
  | .result r => Except.ok (some r)
  | .error e => Except.error (sync_wait_error_visitor e)
  | .monostate => Except.ok none

/-- The signal `set_value` emplaces the result alternative. -/
def signal_value {η ρ : Type} (r : ρ) : Stored η ρ := Stored.result r

/-- The signal `set_error` emplaces the error alternative. -/
def signal_error {η ρ : Type} (e : StoredError η) : Stored η ρ := Stored.error e

/-- The signal `set_stopped` only signals the flag; the variant stays `monostate`. -/
def signal_stopped {η ρ : Type} : Stored η ρ := Stored.monostate

/-- C4: evaluation of the source's `get_value` at each terminal outcome, against
the claimed mapping.  The value case agrees; after a stopped signal the code
raises `bad_variant_access` instead of returning an empty optional, and after an
error signal (typed or captured) it also raises `bad_variant_access` instead of
re-raising the stored error — the error/stopped handling in `get_value` is dead
code behind the unconditionally-returning `if constexpr` branches. -/
theorem get_value_divergence :
    get_value (η := Nat) (ρ := Nat) (signal_value 42) = Except.ok (some 42) ∧
    get_value_claimed (η := Nat) (ρ := Nat) (signal_value 42) = Except.ok (some 42) ∧
    get_value (η := Nat) (ρ := Nat) signal_stopped =
      Except.error Thrown.badVariantAccess ∧
    get_value_claimed (η := Nat) (ρ := Nat) signal_stopped = Except.ok none ∧
    get_value (η := Nat) (ρ := Nat) (signal_error (StoredError.typed 7)) =
      Except.error Thrown.badVariantAccess ∧
    get_value_claimed (η := Nat) (ρ := Nat) (signal_error (StoredError.typed 7)) =
      Except.error (Thrown.typedError 7) ∧
    get_value (η := Nat) (ρ := Nat) (signal_error (StoredError.exceptionPtr 3)) =
      Except.error Thrown.badVariantAccess ∧
    get_value_claimed (η := Nat) (ρ := Nat)
      (signal_error (StoredError.exceptionPtr 3)) =
      Except.error (Thrown.rethrownPtr 3) :=
  ⟨rfl, rfl, rfl, rfl, rfl, rfl, rfl, rfl⟩

end SyncWait

end HpxModel
